import Mathlib

/-
A formal model of the output-chain transmission engine in
src/src/os/unix/ngx_freebsd_sendfile_chain.c.

The chain is a list of buffer spans (ngx_hunk_t).  The hunk structure and
its helper macros are declared outside this repository's sources, so they
are modelled from the spec's data model: a tagged union of a memory span
[pos, last), a file span [file_pos, file_last) with a file-descriptor
identity, and a zero-length special marker.  Addresses, file offsets and
descriptors are abstracted as naturals.

The two OS send primitives (writev, sendfile) and ngx_tcp_nopush are
external syscalls; each loop iteration's syscall outcome is supplied by an
oracle list, and the nopush outcome by a configuration field.  Scratch
array allocation (ngx_init_array / ngx_push_array) is modelled as always
succeeding.
-/

/-- Buffer span (`ngx_hunk_t`).  Modelled from the spec: the hunk structure
is not among this repository's sources; the spec describes a tagged union of
memory span, file span and zero-length special marker. -/
inductive Hunk where
  | mem (pos last : Nat)
  | file (fd file_pos file_last : Nat)
  | special
deriving DecidableEq, Repr

/-- Modelled from the spec: `ngx_hunk_special` — a special span carries no
transmissible bytes and is neither a memory nor a file span. -/
def ngx_hunk_special : Hunk → Bool
  | .special => true
  | _ => false

/-- Modelled from the spec: `ngx_hunk_in_memory_only` — a memory span that is
not a file span. -/
def ngx_hunk_in_memory_only : Hunk → Bool
  | .mem _ _ => true
  | _ => false

/-- Modelled from the spec: the `NGX_HUNK_FILE` type bit of a hunk. -/
def hunkIsFile : Hunk → Bool
  | .file _ _ _ => true
  | _ => false

/-- Modelled from the spec: `ngx_hunk_size` — the remaining size of a span:
`last - pos` for memory, `file_last - file_pos` for file, 0 for special. -/
def ngx_hunk_size : Hunk → Nat
  | .mem p l => l - p
  | .file _ p l => l - p
  | .special => 0

/-- One scatter-gather vector entry (`struct iovec`). -/
structure Iovec where
  iov_base : Nat
  iov_len : Nat
deriving DecidableEq, Repr

/-- `iov->iov_len += ...`: extend the most recently pushed vector entry
(lines 68-70 and 119-121 of the source). -/
def extendLast (acc : List Iovec) (n : Nat) : List Iovec :=
  match acc with
  | [] => []
  | [v] => [⟨v.iov_base, v.iov_len + n⟩]
  | v :: rest => v :: extendLast rest n

/-- The memory-span scan of `ngx_freebsd_sendfile_chain` (header loop,
lines 56-80; the trailer loop of lines 105-129 is the same loop with its
byte count unused).  Special hunks are skipped (`continue`), the scan stops
at the first hunk that is not in memory only (`break`), and a memory hunk is
merged into the last vector entry exactly when `prev == ce->hunk->pos`,
otherwise a new entry is pushed.  Arguments: remaining chain, `prev`
(`NULL` = `none`), entries so far, byte count so far (`hsize`), index of the
current cell.  Returns the entries, the byte count and the index where the
scan stopped. -/
def memScanLoop : List Hunk → Option Nat → List Iovec → Nat → Nat →
    List Iovec × Nat × Nat
  | [], _, acc, hsize, idx => (acc, hsize, idx)
  | Hunk.special :: t, prev, acc, hsize, idx =>
      memScanLoop t prev acc hsize (idx + 1)
  | Hunk.file _ _ _ :: _, _, acc, hsize, idx =>
      (acc, hsize, idx)
  | Hunk.mem pos last :: t, prev, acc, hsize, idx =>
      if prev = some pos then
        memScanLoop t (some last) (extendLast acc (last - pos))
          (hsize + (last - pos)) (idx + 1)
      else
        memScanLoop t (some last) (acc ++ [Iovec.mk pos (last - pos)])
          (hsize + (last - pos)) (idx + 1)

/-- The file-hunk coalescing loop (lines 92-102): while the next hunk is a
file hunk, stop (`break`) when its descriptor differs from the region's
first hunk or `fprev != ce->hunk->file_pos`; otherwise add its size and
advance `fprev`.  Arguments: the region's descriptor, `fprev`, `fsize`,
remaining chain.  Returns final `fsize`, final `fprev` and how many hunks
were coalesced. -/
def fileCoalesce (fd : Nat) : Nat → Nat → List Hunk → Nat × Nat × Nat
  | fprev, fsize, Hunk.file fd2 fp2 fl2 :: t =>
      if fd ≠ fd2 ∨ fprev ≠ fp2 then
        (fsize, fprev, 0)
      else
        let r := fileCoalesce fd fl2 (fsize + (fl2 - fp2)) t
        (r.1, r.2.1, r.2.2 + 1)
  | fprev, fsize, _ => (fsize, fprev, 0)

/-- The merged contiguous file region: descriptor, start offset (the first
file hunk's `file_pos`, passed to sendfile), and total size `fsize`. -/
structure FileRegion where
  fd : Nat
  file_pos : Nat
  fsize : Nat
deriving DecidableEq, Repr

/-- Output of the chain coalescer (lines 54-136): header vectors and their
byte count, the optional file region, the index just past the file hunks,
trailer vectors, and the index of `tail` (the cell where the trailer scan
stopped; `tail == NULL` when it equals the chain's length). -/
structure Coalesced where
  header : List Iovec
  hsize : Nat
  fileRegion : Option FileRegion
  fileEnd : Nat
  trailer : List Iovec
  tailIdx : Nat
deriving DecidableEq, Repr

/-- One coalescing pass over the chain (lines 54-136): header scan from the
head, then the file hunk and its coalescing (lines 84-103), then the trailer
scan, then `tail = ce`. -/
def coalesce (chain : List Hunk) : Coalesced :=
  let h := memScanLoop chain none [] 0 0
  match chain.drop h.2.2 with
  | Hunk.file fd fp fl :: t =>
      let f := fileCoalesce fd fl (fl - fp) t
      let fe := h.2.2 + 1 + f.2.2
      let tr := memScanLoop (chain.drop fe) none [] 0 0
      ⟨h.1, h.2.1, some ⟨fd, fp, f.1⟩, fe, tr.1, fe + tr.2.2⟩
  | _ =>
      let tr := memScanLoop (chain.drop h.2.2) none [] 0 0
      ⟨h.1, h.2.1, none, h.2.2, tr.1, h.2.2 + tr.2.2⟩

/-- Lines 235-246: a fully consumed hunk has its cursors set to their
limits (`pos = last`, `file_pos = file_last`). -/
def consumeHunk : Hunk → Hunk
  | .mem _ l => .mem l l
  | .file fd _ l => .file fd l l
  | .special => .special

/-- Lines 249-255: a partially consumed hunk has its cursor advanced by the
remaining sent count. -/
def advanceHunk : Hunk → Nat → Hunk
  | .mem p l, n => .mem (p + n) l
  | .file fd p l, n => .file fd (p + n) l
  | .special, _ => .special

/-- The completion pass (lines 223-260): walk the original chain from its
head; skip special hunks (`continue`); stop when `sent == 0`; a hunk whose
size is at most `sent` is fully consumed and its size subtracted; otherwise
the hunk's cursor advances by `sent` and the scan stops.  Returns the
cursor-updated chain and the index of the cell where the scan stopped
(`in = ce`, line 260): the new chain head is the updated chain from that
index on. -/
def applySent : Nat → List Hunk → List Hunk × Nat
  | _, [] => ([], 0)
  | sent, h :: t =>
    if ngx_hunk_special h then
      let r := applySent sent t
      (h :: r.1, r.2 + 1)
    else if sent = 0 then
      (h :: t, 0)
    else if ngx_hunk_size h ≤ sent then
      let r := applySent (sent - ngx_hunk_size h) t
      (consumeHunk h :: r.1, r.2 + 1)
    else
      (advanceHunk h sent :: t, 0)

/-- Platform configuration (the globals `ngx_freebsd_use_tcp_nopush` and
`ngx_freebsd_sendfile_nbytes_bug`, set outside this file's sources), plus
the outcome of `ngx_tcp_nopush`.  Modelled from the spec: the nopush
syscall's result is an external input; it is invoked at most once per
connection, so one Boolean suffices. -/
structure Config where
  use_tcp_nopush : Bool
  nbytes_bug : Bool
  nopush_ok : Bool
deriving DecidableEq, Repr

/-- Per-connection state used by the engine: `c->write->ready`,
`c->tcp_nopush` and the cumulative `c->sent`. -/
structure Conn where
  writeReady : Bool
  tcp_nopush : Bool
  sent : Nat
deriving DecidableEq, Repr

/-- One transmission attempt's outcome, supplied by the oracle.  `n` is the
byte count the OS reports: for sendfile the `&sent` out-parameter (reported
also on EINTR/EAGAIN/other errors); for writev the return value when
non-negative. -/
inductive Syscall where
  | ok (n : Nat)
  | eintr (n : Nat)
  | eagain (n : Nat)
  | fatalErr (n : Nat)
deriving DecidableEq, Repr

/-- The syscall request the engine builds: either
`sendfile(fd, ..., file_pos, nbytes, hdtr(header, trailer), ...)`
(lines 152-167) or `writev(fd, header, nelts)` (line 197). -/
inductive TransmitCall where
  | sendfileCall (fd file_pos nbytes : Nat) (hdr trl : List Iovec)
  | writevCall (iov : List Iovec)
deriving DecidableEq, Repr

/-- Build the transmission request for the current chain.  When a file
region is present the requested length is `fsize + hsize`, except that
`hsize` is zeroed when `ngx_freebsd_sendfile_nbytes_bug == 0`
(lines 162-167); the header and trailer vectors ride along in `hdtr`
either way. -/
def transmitCall (cfg : Config) (chain : List Hunk) : TransmitCall :=
  let co := coalesce chain
  match co.fileRegion with
  | some f =>
      let hsize := if cfg.nbytes_bug then co.hsize else 0
      .sendfileCall f.fd f.file_pos (f.fsize + hsize) co.header co.trailer
  | none => .writevCall co.header

/-- Lines 140-141: on the file path, `c->tcp_nopush` is set before
`ngx_tcp_nopush` is invoked. -/
def applyNopush (cfg : Config) (conn : Conn) : Conn :=
  if cfg.use_tcp_nopush && !conn.tcp_nopush then { conn with tcp_nopush := true }
  else conn

/-- Lines 140-149: `ngx_tcp_nopush` is invoked (and may fail fatally) only
when the option is enabled and the connection is not yet corked. -/
def nopushFails (cfg : Config) (conn : Conn) : Bool :=
  cfg.use_tcp_nopush && !conn.tcp_nopush && !cfg.nopush_ok

/-- What one loop iteration leaves behind when it does not abort: the
connection (with `c->sent` updated, line 221), the cursor-updated chain and
the completion stop index (lines 223-260), the `tail` index, and the
`eintr` / `eagain` flags. -/
structure StepOut where
  conn : Conn
  mutated : List Hunk
  stopIdx : Nat
  tailIdx : Nat
  eintr : Bool
  eagain : Bool
deriving DecidableEq, Repr

/-- A loop iteration either aborts with `NGX_CHAIN_ERROR` or produces a
`StepOut`. -/
inductive StepResult where
  | chainError (conn : Conn)
  | ok (s : StepOut)
deriving DecidableEq, Repr

/-- `c->sent += sent` (line 221) followed by the completion pass
(lines 223-260). -/
def finishStep (conn : Conn) (chain : List Hunk) (tailIdx sent : Nat)
    (ei ea : Bool) : StepResult :=
  let conn2 := { conn with sent := conn.sent + sent }
  let r := applySent sent chain
  .ok ⟨conn2, r.1, r.2, tailIdx, ei, ea⟩

/-- One iteration of the do-while loop (lines 41-260): coalesce, choose the
strategy, transmit (outcome from the oracle), apply completion.  On the
sendfile path EINTR and EAGAIN set their flags and keep the reported
`sent` (lines 169-182); any other failure aborts before `c->sent` or the
chain is touched (line 187).  On the writev path EINTR sets its flag,
EAGAIN is only logged (lines 199-207), and `sent = rc > 0 ? rc : 0`
(line 214). -/
def stepIter (cfg : Config) (conn : Conn) (chain : List Hunk)
    (sc : Syscall) : StepResult :=
  match transmitCall cfg chain with
  | .sendfileCall _ _ _ _ _ =>
      let conn1 := applyNopush cfg conn
      if nopushFails cfg conn then .chainError conn1
      else
        match sc with
        | .ok n => finishStep conn1 chain (coalesce chain).tailIdx n false false
        | .eintr n => finishStep conn1 chain (coalesce chain).tailIdx n true false
        | .eagain n => finishStep conn1 chain (coalesce chain).tailIdx n false true
        | .fatalErr _ => .chainError conn1
  | .writevCall _ =>
      match sc with
      | .ok n => finishStep conn chain (coalesce chain).tailIdx n false false
      | .eintr _ => finishStep conn chain (coalesce chain).tailIdx 0 true false
      | .eagain _ => finishStep conn chain (coalesce chain).tailIdx 0 false false
      | .fatalErr _ => .chainError conn

/-- The do-while condition `(tail && tail == in) || eintr` (line 274),
with pointer identity rendered as cell indices into the iteration's chain:
`tail` is non-NULL iff `tailIdx < len`, and then `tail == in` iff the
completion stop index equals `tailIdx`. -/
def loopAgain (len tailIdx stopIdx : Nat) (eintr : Bool) : Bool :=
  (decide (tailIdx < len) && decide (tailIdx = stopIdx)) || eintr

/-- The engine's result: the remaining chain (`return in`), the
`NGX_CHAIN_ERROR` marker with the state at abort, or the oracle ran out
while the loop wanted another iteration. -/
inductive EngineResult where
  | done (conn : Conn) (chain : List Hunk)
  | chainError (conn : Conn) (chain : List Hunk)
  | oracleOut (conn : Conn) (chain : List Hunk)
deriving DecidableEq, Repr

/-- The do-while loop (lines 41-274) and the epilogue (lines 262-280): on
`eagain`, `c->write->ready = 0` and break (lines 262-270); otherwise loop
again while `(tail && tail == in) || eintr`; after the loop, `if (in)
c->write->ready = 0` and return `in`.  One oracle entry is consumed per
iteration. -/
def sendLoop (cfg : Config) : Conn → List Hunk → List Syscall → EngineResult
  | conn, chain, [] => .oracleOut conn chain
  | conn, chain, sc :: rest =>
    match stepIter cfg conn chain sc with
    | .chainError c1 => .chainError c1 chain
    | .ok s =>
      let newIn := s.mutated.drop s.stopIdx
      if s.eagain then .done { s.conn with writeReady := false } newIn
      else if loopAgain chain.length s.tailIdx s.stopIdx s.eintr then
        sendLoop cfg s.conn newIn rest
      else if newIn = [] then .done s.conn newIn
      else .done { s.conn with writeReady := false } newIn

/-- `ngx_freebsd_sendfile_chain(c, in)` (lines 24-281): if the connection is
not write-ready, return the chain unchanged (lines 37-39); otherwise run the
transmission loop. -/
def ngx_freebsd_sendfile_chain (cfg : Config) (conn : Conn)
    (chain : List Hunk) (oracle : List Syscall) : EngineResult :=
  if conn.writeReady then sendLoop cfg conn chain oracle
  else .done conn chain

/-- Sum of the `iov_len` fields of a vector list. -/
def sumLens : List Iovec → Nat
  | [] => 0
  | v :: t => v.iov_len + sumLens t

/-- Modelled from the spec (the coalescing rule as claim C2 states it):
walk the memory spans in order; merge a span into the current vector entry
exactly when its start address equals the previous span's end address;
otherwise finish the current entry and start a new one. -/
def specRunGo (base len endAddr : Nat) : List (Nat × Nat) → List Iovec
  | [] => [⟨base, len⟩]
  | s :: t =>
      if s.1 = endAddr then specRunGo base (len + (s.2 - s.1)) s.2 t
      else ⟨base, len⟩ :: specRunGo s.1 (s.2 - s.1) s.2 t

/-- Modelled from the spec (claim C2): the vector entries obtained by
coalescing a list of memory spans, given as (start, end) address pairs,
merging two consecutive spans into one entry iff the first's end equals the
second's start, preserving order. -/
def specAdjacencyCoalesce : List (Nat × Nat) → List Iovec
  | [] => []
  | s :: t => specRunGo s.1 (s.2 - s.1) s.2 t

/- ### Helper lemmas -/

theorem extendLast_cons (x : Iovec) (l : List Iovec) (n : Nat) (hl : l ≠ []) :
    extendLast (x :: l) n = x :: extendLast l n := by
  cases l with
  | nil => exact absurd rfl hl
  | cons y t => rfl

theorem extendLast_ne_nil (l : List Iovec) (n : Nat) (hl : l ≠ []) :
    extendLast l n ≠ [] := by
  cases l with
  | nil => exact absurd rfl hl
  | cons y t => cases t <;> simp [extendLast]

theorem extendLast_append (a b : List Iovec) (n : Nat) (hb : b ≠ []) :
    extendLast (a ++ b) n = a ++ extendLast b n := by
  induction a with
  | nil => rfl
  | cons x a ih =>
    have : (a ++ b) ≠ [] := by
      cases b with
      | nil => exact absurd rfl hb
      | cons y c => simp
    rw [List.cons_append, extendLast_cons x (a ++ b) n this, ih, List.cons_append]

theorem applySent_zero (u : List Hunk) :
    applySent 0 u = (u, (u.takeWhile fun x => ngx_hunk_special x).length) := by
  induction u with
  | nil => simp [applySent]
  | cons h t ih =>
    cases hs : ngx_hunk_special h with
    | false => simp [applySent, hs, List.takeWhile_cons, ih]
    | true => simp [applySent, hs, List.takeWhile_cons, ih]

theorem drop_takeWhile_eq_dropWhile (p : Hunk → Bool) (u : List Hunk) :
    u.drop (u.takeWhile p).length = u.dropWhile p := by
  induction u with
  | nil => rfl
  | cons h t ih =>
    cases hp : p h with
    | false => simp [List.takeWhile_cons, List.dropWhile_cons, hp]
    | true => simp [List.takeWhile_cons, List.dropWhile_cons, hp, ih]

theorem memScanLoop_acc (c : List Hunk) : ∀ (prev : Option Nat)
    (a b : List Iovec) (hsize idx : Nat), (prev.isSome → b ≠ []) →
    (memScanLoop c prev (a ++ b) hsize idx).1
      = a ++ (memScanLoop c prev b hsize idx).1 := by
  induction c with
  | nil => intro prev a b hsize idx hb; rfl
  | cons h t ih =>
    intro prev a b hsize idx hb
    cases h with
    | special => exact ih prev a b hsize (idx + 1) hb
    | file fd fp fl => rfl
    | mem pos last =>
      by_cases hp : prev = some pos
      · have hbne : b ≠ [] := hb (by rw [hp]; rfl)
        rw [memScanLoop, memScanLoop, if_pos hp, if_pos hp,
          extendLast_append a b _ hbne]
        exact ih (some last) a (extendLast b (last - pos)) _ (idx + 1)
          (fun _ => extendLast_ne_nil b _ hbne)
      · rw [memScanLoop, memScanLoop, if_neg hp, if_neg hp, List.append_assoc]
        exact ih (some last) a (b ++ [Iovec.mk pos (last - pos)]) _ (idx + 1)
          (fun _ => by simp)

theorem memScanLoop_run (t : List (Nat × Nat)) : ∀ (base len endAddr hsize idx : Nat),
    (memScanLoop (t.map fun s => Hunk.mem s.1 s.2) (some endAddr)
        [Iovec.mk base len] hsize idx).1
      = specRunGo base len endAddr t := by
  induction t with
  | nil => intro base len endAddr hsize idx; rfl
  | cons s t ih =>
    intro base len endAddr hsize idx
    by_cases h : s.1 = endAddr
    · rw [List.map_cons, memScanLoop, if_pos (by rw [h]), specRunGo, if_pos h]
      exact ih base (len + (s.2 - s.1)) s.2 _ (idx + 1)
    · rw [List.map_cons, memScanLoop,
        if_neg (fun hc => h (Option.some.inj hc).symm), specRunGo, if_neg h]
      have := memScanLoop_acc (t.map fun s => Hunk.mem s.1 s.2) (some s.2)
        [Iovec.mk base len] [Iovec.mk s.1 (s.2 - s.1)] (hsize + (s.2 - s.1))
        (idx + 1) (fun _ => by simp)
      rw [this, ih s.1 (s.2 - s.1) s.2 _ (idx + 1), List.singleton_append]

theorem applySent_length (n : Nat) (c : List Hunk) :
    (applySent n c).1.length = c.length ∧ (applySent n c).2 ≤ c.length := by
  induction c generalizing n with
  | nil => simp [applySent]
  | cons h t ih =>
    cases hs : ngx_hunk_special h with
    | true =>
      have := ih n
      simp only [applySent, hs, if_true]
      constructor
      · simp [this.1]
      · simpa using Nat.succ_le_succ this.2
    | false =>
      by_cases h0 : n = 0
      · simp [applySent, hs, h0]
      · by_cases hle : ngx_hunk_size h ≤ n
        · have := ih (n - ngx_hunk_size h)
          simp only [applySent, hs, h0, hle, if_true, if_false, Bool.false_eq_true]
          constructor
          · simp [this.1]
          · simpa using Nat.succ_le_succ this.2
        · simp [applySent, hs, h0, hle]

theorem applySent_special_preserved (n : Nat) (c : List Hunk) (i : Nat)
    (hc : c.get? i = some Hunk.special) :
    (applySent n c).1.get? i = some Hunk.special := by
  induction c generalizing n i with
  | nil => simp at hc
  | cons h t ih =>
    cases i with
    | zero =>
      simp only [List.get?_cons_zero, Option.some.injEq] at hc
      subst hc
      simp [applySent, ngx_hunk_special]
    | succ j =>
      simp only [List.get?_cons_succ] at hc
      cases hs : ngx_hunk_special h with
      | true => simpa [applySent, hs] using ih n j hc
      | false =>
        by_cases h0 : n = 0
        · simpa [applySent, hs, h0] using hc
        · by_cases hle : ngx_hunk_size h ≤ n
          · simpa [applySent, hs, h0, hle] using ih (n - ngx_hunk_size h) j hc
          · simpa [applySent, hs, h0, hle] using hc

theorem sumLens_append (a b : List Iovec) :
    sumLens (a ++ b) = sumLens a + sumLens b := by
  induction a with
  | nil => simp [sumLens]
  | cons x a ih => simp [sumLens, ih]; omega

theorem sumLens_extendLast (l : List Iovec) (n : Nat) (hl : l ≠ []) :
    sumLens (extendLast l n) = sumLens l + n := by
  induction l with
  | nil => exact absurd rfl hl
  | cons x l ih =>
    cases l with
    | nil => simp [extendLast, sumLens]
    | cons y t =>
      rw [extendLast_cons x (y :: t) n (by simp), sumLens, sumLens,
        ih (by simp)]
      omega

theorem sumLens_memScanLoop (c : List Hunk) : ∀ (prev : Option Nat)
    (acc : List Iovec) (hsize idx : Nat), (prev.isSome → acc ≠ []) →
    sumLens (memScanLoop c prev acc hsize idx).1 + hsize
      = sumLens acc + (memScanLoop c prev acc hsize idx).2.1 := by
  induction c with
  | nil => intro prev acc hsize idx hb; rfl
  | cons h t ih =>
    intro prev acc hsize idx hb
    cases h with
    | special => exact ih prev acc hsize (idx + 1) hb
    | file fd fp fl => rfl
    | mem pos last =>
      by_cases hp : prev = some pos
      · have hane : acc ≠ [] := hb (by rw [hp]; rfl)
        rw [memScanLoop, if_pos hp]
        have := ih (some last) (extendLast acc (last - pos))
          (hsize + (last - pos)) (idx + 1)
          (fun _ => extendLast_ne_nil acc _ hane)
        rw [sumLens_extendLast acc _ hane] at this
        omega
      · rw [memScanLoop, if_neg hp]
        have := ih (some last) (acc ++ [Iovec.mk pos (last - pos)])
          (hsize + (last - pos)) (idx + 1) (fun _ => by simp)
        rw [sumLens_append] at this
        simp [sumLens] at this
        omega

theorem coalesce_header_hsize (chain : List Hunk) :
    (coalesce chain).header = (memScanLoop chain none [] 0 0).1
    ∧ (coalesce chain).hsize = (memScanLoop chain none [] 0 0).2.1 := by
  rcases hd : List.drop (memScanLoop chain none [] 0 0).2.2 chain with _ | ⟨h1, t⟩
  · simp [coalesce, hd]
  · cases h1 <;> simp [coalesce, hd]

theorem applyNopush_sent (cfg : Config) (conn : Conn) :
    (applyNopush cfg conn).sent = conn.sent := by
  unfold applyNopush
  split <;> rfl

theorem applyNopush_writeReady (cfg : Config) (conn : Conn) :
    (applyNopush cfg conn).writeReady = conn.writeReady := by
  unfold applyNopush
  split <;> rfl

theorem memScanLoop_replicate (k : Nat) : ∀ (rest : List Hunk)
    (prev : Option Nat) (acc : List Iovec) (hsize idx : Nat),
    memScanLoop (List.replicate k Hunk.special ++ rest) prev acc hsize idx
      = memScanLoop rest prev acc hsize (idx + k) := by
  induction k with
  | zero => intro rest prev acc hsize idx; rfl
  | succ k ih =>
    intro rest prev acc hsize idx
    rw [List.replicate_succ, List.cons_append, memScanLoop, ih]
    congr 1
    omega

/- ### Claim theorems -/

/-- Claim C1 (confirmed): for every transmission attempt reporting `s` bytes
sent, the completion pass walks the original, uncoalesced chain from its
head, skipping special spans; each non-special span whose remaining size is
at most the running count is fully consumed (cursor set to its limit, so its
remaining size becomes 0) and its size is subtracted from the count; the
first non-special span whose remaining size exceeds the running count has
its cursor advanced by exactly the remaining count and becomes the new chain
head (stop index 0 at that cell); once the count reaches zero, scanning
stops and the next non-special span — possibly none — becomes the new chain
head (the chain with its leading special spans dropped). -/
theorem c1_completion_pass (s : Nat) (h1 h2 : Hunk) (t u : List Hunk)
    (hs : 0 < s)
    (hns1 : ngx_hunk_special h1 = false) (hns2 : ngx_hunk_special h2 = false)
    (hle : ngx_hunk_size h1 ≤ s) (hlt : s < ngx_hunk_size h2) :
    applySent s (Hunk.special :: t)
        = (Hunk.special :: (applySent s t).1, (applySent s t).2 + 1)
    ∧ applySent s (h1 :: t)
        = (consumeHunk h1 :: (applySent (s - ngx_hunk_size h1) t).1,
           (applySent (s - ngx_hunk_size h1) t).2 + 1)
    ∧ ngx_hunk_size (consumeHunk h1) = 0
    ∧ applySent s (h2 :: t) = (advanceHunk h2 s :: t, 0)
    ∧ ngx_hunk_size (advanceHunk h2 s) = ngx_hunk_size h2 - s
    ∧ applySent 0 u = (u, (u.takeWhile fun x => ngx_hunk_special x).length)
    ∧ (applySent 0 u).1.drop (applySent 0 u).2
        = u.dropWhile fun x => ngx_hunk_special x := by
  have h0 : s ≠ 0 := Nat.pos_iff_ne_zero.mp hs
  refine ⟨?_, ?_, ?_, ?_, ?_, applySent_zero u, ?_⟩
  · simp [applySent, ngx_hunk_special]
  · simp [applySent, hns1, h0, hle]
  · cases h1 <;> simp [consumeHunk, ngx_hunk_size]
  · simp [applySent, hns2, h0, Nat.not_le.mpr hlt]
  · cases h2 <;> simp [advanceHunk, ngx_hunk_size] <;> omega
  · rw [applySent_zero u]
    exact drop_takeWhile_eq_dropWhile _ u

theorem c1_completion_pass_witness :
    applySent 5 [Hunk.mem 0 3, Hunk.mem 20 22]
      = (consumeHunk (Hunk.mem 0 3)
          :: (applySent (5 - ngx_hunk_size (Hunk.mem 0 3)) [Hunk.mem 20 22]).1,
         (applySent (5 - ngx_hunk_size (Hunk.mem 0 3)) [Hunk.mem 20 22]).2 + 1) :=
  (c1_completion_pass 5 (Hunk.mem 0 3) (Hunk.mem 0 9) [Hunk.mem 20 22]
    [Hunk.special, Hunk.mem 1 2] (by decide) (by decide) (by decide)
    (by decide) (by decide)).2.1

/-- Claim C2 (confirmed): accumulating consecutive memory spans into the
header (or trailer) scatter-gather vectors — both use the same scan loop —
merges two consecutive memory spans into one vector entry iff the first
span's end address equals the second span's start address; any gap starts a
new entry, and order is preserved: the scan's output equals the
spec-modelled run coalescing `specAdjacencyCoalesce`, which by construction
merges exactly on end-equals-start and emits entries in span order. -/
theorem c2_adjacency_coalescing (spans : List (Nat × Nat)) :
    (memScanLoop (spans.map fun s => Hunk.mem s.1 s.2) none [] 0 0).1
      = specAdjacencyCoalesce spans := by
  cases spans with
  | nil => rfl
  | cons s t =>
    rw [List.map_cons, memScanLoop, if_neg (by simp), specAdjacencyCoalesce,
      List.nil_append]
    exact memScanLoop_run t s.1 (s.2 - s.1) s.2 (0 + (s.2 - s.1)) (0 + 1)

/-- Claim C3 (confirmed): once a file span opens the file region, an
immediately following file span is merged into the region iff it has the
region's file descriptor and its start offset equals the running end offset
`fprev`; a descriptor change or an offset gap stops the coalescing, as does
any non-file span; and for a chain of two non-contiguous (or
different-file) file spans the second one is left as the tail — the
coalescer returns the first span alone as the file region, empty header and
trailer vectors, and tail index 1 (the second file span's cell). -/
theorem c3_file_coalescing (fd fprev fsize mfp mfl nfd nfp nfl fd1 fp1 fl1 : Nat)
    (t u : List Hunk) (h : Hunk)
    (hm : mfp = fprev)
    (hn : fd ≠ nfd ∨ fprev ≠ nfp)
    (hnf : hunkIsFile h = false)
    (ht : fd1 ≠ nfd ∨ fl1 ≠ nfp) :
    fileCoalesce fd fprev fsize (Hunk.file fd mfp mfl :: t)
      = ((fileCoalesce fd mfl (fsize + (mfl - mfp)) t).1,
         (fileCoalesce fd mfl (fsize + (mfl - mfp)) t).2.1,
         (fileCoalesce fd mfl (fsize + (mfl - mfp)) t).2.2 + 1)
    ∧ fileCoalesce fd fprev fsize (Hunk.file nfd nfp nfl :: t) = (fsize, fprev, 0)
    ∧ fileCoalesce fd fprev fsize (h :: t) = (fsize, fprev, 0)
    ∧ coalesce (Hunk.file fd1 fp1 fl1 :: Hunk.file nfd nfp nfl :: u)
        = ⟨[], 0, some ⟨fd1, fp1, fl1 - fp1⟩, 1, [], 1⟩ := by
  subst hm
  refine ⟨?_, ?_, ?_, ?_⟩
  · rw [fileCoalesce, if_neg (by simp)]
  · rw [fileCoalesce, if_pos hn]
  · cases h with
    | mem p l => rfl
    | file a b c => simp [hunkIsFile] at hnf
    | special => rfl
  · have h1 : fileCoalesce fd1 fl1 (fl1 - fp1) (Hunk.file nfd nfp nfl :: u)
        = (fl1 - fp1, fl1, 0) := by
      rw [fileCoalesce, if_pos ht]
    simp [coalesce, memScanLoop, h1]

theorem c3_file_coalescing_witness :
    coalesce [Hunk.file 3 0 50, Hunk.file 3 60 110]
      = ⟨[], 0, some ⟨3, 0, 50⟩, 1, [], 1⟩ :=
  (c3_file_coalescing 3 50 50 50 80 3 60 110 3 0 50 [] [] Hunk.special
    rfl (Or.inr (by decide)) (by decide) (Or.inr (by decide))).2.2.2

/-- Claim C8 (confirmed): when the connection's write-ready flag is false
the engine returns the input chain unchanged and performs no transmission:
the returned connection is the input connection itself (sent counter, cork
flag and write-ready flag all unmodified), the returned chain is the input
chain itself (no span cursor touched), and no oracle entry is consumed. -/
theorem c8_not_ready_identity (cfg : Config) (conn : Conn)
    (chain : List Hunk) (oracle : List Syscall)
    (h : conn.writeReady = false) :
    ngx_freebsd_sendfile_chain cfg conn chain oracle = .done conn chain := by
  simp [ngx_freebsd_sendfile_chain, h]

theorem c8_not_ready_identity_witness :
    ngx_freebsd_sendfile_chain ⟨true, true, true⟩ ⟨false, false, 7⟩
        [Hunk.mem 0 3, Hunk.file 2 0 9] [Syscall.ok 3]
      = .done ⟨false, false, 7⟩ [Hunk.mem 0 3, Hunk.file 2 0 9] :=
  c8_not_ready_identity ⟨true, true, true⟩ ⟨false, false, 7⟩
    [Hunk.mem 0 3, Hunk.file 2 0 9] [Syscall.ok 3] rfl

/-- Claim C9 (confirmed): when a file region is present, the length
requested from sendfile is the file-region size plus the header size
(`fsize + hsize`, where `hsize` equals the total byte length of the header
vectors) whenever the nbytes-bug configuration flag is set — the variants
honoring the combined header+file hint; when the flag is clear (the
variants that mis-honor a combined hint), the header's contribution to the
hinted length is zero while the header vectors are still passed along in
the `hdtr` structure. -/
theorem c9_sendfile_nbytes (cfg : Config) (chain : List Hunk) (f : FileRegion)
    (hf : (coalesce chain).fileRegion = some f) :
    (cfg.nbytes_bug = true →
      transmitCall cfg chain
        = .sendfileCall f.fd f.file_pos (f.fsize + (coalesce chain).hsize)
            (coalesce chain).header (coalesce chain).trailer)
    ∧ (cfg.nbytes_bug = false →
      transmitCall cfg chain
        = .sendfileCall f.fd f.file_pos f.fsize
            (coalesce chain).header (coalesce chain).trailer)
    ∧ sumLens (coalesce chain).header = (coalesce chain).hsize := by
  refine ⟨fun hb => ?_, fun hb => ?_, ?_⟩
  · simp [transmitCall, hf, hb]
  · simp [transmitCall, hf, hb]
  · rw [(coalesce_header_hsize chain).1, (coalesce_header_hsize chain).2]
    have := sumLens_memScanLoop chain none [] 0 0 (fun hx => by simp at hx)
    simpa [sumLens] using this

theorem c9_sendfile_nbytes_witness :
    transmitCall ⟨false, true, true⟩ [Hunk.mem 0 4, Hunk.file 7 5 25]
      = .sendfileCall 7 5 (20 + (coalesce [Hunk.mem 0 4, Hunk.file 7 5 25]).hsize)
          (coalesce [Hunk.mem 0 4, Hunk.file 7 5 25]).header
          (coalesce [Hunk.mem 0 4, Hunk.file 7 5 25]).trailer :=
  (c9_sendfile_nbytes ⟨false, true, true⟩ [Hunk.mem 0 4, Hunk.file 7 5 25]
    ⟨7, 5, 20⟩ (by decide)).1 rfl

/-- Claim C10 (confirmed): skipping a special span does not reset the
adjacency tracking in the memory scan used for both the header and the
trailer vectors: the scan treats a special span as a no-op that only
advances the cell index (leaving `prev` and the accumulated entries
untouched), and for two memory spans A and B separated only by special
spans with A's end address equal to B's start address, the scan produces a
single vector entry whose length is the sum of their sizes. -/
theorem c10_special_adjacency (t : List Hunk) (prev : Option Nat)
    (acc : List Iovec) (hsize idx pa la pb lb k : Nat) (h : la = pb) :
    memScanLoop (Hunk.special :: t) prev acc hsize idx
      = memScanLoop t prev acc hsize (idx + 1)
    ∧ (memScanLoop (Hunk.mem pa la :: (List.replicate k Hunk.special
          ++ [Hunk.mem pb lb])) none [] 0 0).1
      = [Iovec.mk pa ((la - pa) + (lb - pb))] := by
  subst h
  refine ⟨rfl, ?_⟩
  rw [memScanLoop, if_neg (by simp), List.nil_append,
    memScanLoop_replicate k [Hunk.mem la lb] (some la) [Iovec.mk pa (la - pa)]
      (0 + (la - pa)) (0 + 1),
    memScanLoop, if_pos rfl]
  simp [memScanLoop, extendLast]

theorem c10_special_adjacency_witness :
    (memScanLoop (Hunk.mem 0 5 :: (List.replicate 2 Hunk.special
        ++ [Hunk.mem 5 9])) none [] 0 0).1
      = [Iovec.mk 0 ((5 - 0) + (9 - 5))] :=
  (c10_special_adjacency [] none [] 0 0 0 5 5 9 2 rfl).2

theorem sendLoop_cons_ok (cfg : Config) (conn : Conn) (chain : List Hunk)
    (sc : Syscall) (rest : List Syscall) (s : StepOut)
    (hstep : stepIter cfg conn chain sc = .ok s) :
    sendLoop cfg conn chain (sc :: rest)
      = (if s.eagain then
           .done { s.conn with writeReady := false } (s.mutated.drop s.stopIdx)
         else if loopAgain chain.length s.tailIdx s.stopIdx s.eintr then
           sendLoop cfg s.conn (s.mutated.drop s.stopIdx) rest
         else if s.mutated.drop s.stopIdx = [] then
           .done s.conn (s.mutated.drop s.stopIdx)
         else
           .done { s.conn with writeReady := false }
             (s.mutated.drop s.stopIdx)) := by
  simp only [sendLoop, hstep]

/-- Claim C4 (confirmed): after a transmission attempt and its completion
application, an Interrupted (EINTR) outcome always causes another iteration
immediately; otherwise (no EINTR, no EAGAIN) the loop condition holds only
if the previously computed tail equals the new chain head (same cell index),
and it does continue whenever the non-NULL tail equals the new head; and if
the new chain head is non-empty and does not equal the tail, the loop stops
with the connection's write-ready flag set to false. -/
theorem c4_loop_policy (cfg : Config) (conn : Conn) (chain : List Hunk)
    (sc : Syscall) (rest : List Syscall) (s : StepOut)
    (hstep : stepIter cfg conn chain sc = .ok s) :
    (s.eintr = true → s.eagain = false →
      sendLoop cfg conn chain (sc :: rest)
        = sendLoop cfg s.conn (s.mutated.drop s.stopIdx) rest)
    ∧ (loopAgain chain.length s.tailIdx s.stopIdx false = true
        → s.tailIdx = s.stopIdx)
    ∧ (s.eagain = false → s.tailIdx < chain.length → s.tailIdx = s.stopIdx →
      sendLoop cfg conn chain (sc :: rest)
        = sendLoop cfg s.conn (s.mutated.drop s.stopIdx) rest)
    ∧ (s.eintr = false → s.eagain = false → s.tailIdx ≠ s.stopIdx →
      s.mutated.drop s.stopIdx ≠ [] →
      sendLoop cfg conn chain (sc :: rest)
        = .done { s.conn with writeReady := false }
            (s.mutated.drop s.stopIdx)) := by
  refine ⟨fun hei hea => ?_, fun hl => ?_, fun hea hlt heq => ?_,
    fun hei hea hne hnn => ?_⟩
  · rw [sendLoop_cons_ok cfg conn chain sc rest s hstep]
    simp [hea, loopAgain, hei]
  · simp only [loopAgain, Bool.or_false, Bool.and_eq_true, decide_eq_true_eq]
      at hl
    exact hl.2
  · rw [sendLoop_cons_ok cfg conn chain sc rest s hstep]
    have hla : loopAgain chain.length s.tailIdx s.stopIdx s.eintr = true := by
      simp [loopAgain, hlt, heq]
      exact Or.inl (heq ▸ hlt)
    simp [hea, hla]
  · rw [sendLoop_cons_ok cfg conn chain sc rest s hstep]
    have hla : loopAgain chain.length s.tailIdx s.stopIdx s.eintr = false := by
      simp [loopAgain, hne, hei]
    simp [hea, hla, hnn]

theorem c4_loop_policy_witness :
    sendLoop ⟨false, true, true⟩ ⟨true, false, 0⟩ [Hunk.mem 0 3]
        [Syscall.eintr 0]
      = sendLoop ⟨false, true, true⟩ ⟨true, false, 0⟩ [Hunk.mem 0 3] [] :=
  (c4_loop_policy ⟨false, true, true⟩ ⟨true, false, 0⟩ [Hunk.mem 0 3]
    (Syscall.eintr 0) [] ⟨⟨true, false, 0⟩, [Hunk.mem 0 3], 0, 1, true, false⟩
    (by decide)).1 rfl rfl

/-- Claim C5 (corrected) — counterexample to the claim as stated: a
WouldBlock outcome with bytesSent = 0 does not always return the chain head
unchanged.  With the chain `[special, file]`, sendfile's EAGAIN with 0
bytes sent makes the engine return `[file]`: the completion pass stops at
the first non-special cell and the leading special span is dropped from
the returned chain. -/
theorem c5_wouldblock_counterexample :
    ngx_freebsd_sendfile_chain ⟨false, true, true⟩ ⟨true, false, 0⟩
        [Hunk.special, Hunk.file 3 0 100] [Syscall.eagain 0]
      = .done ⟨false, false, 0⟩ [Hunk.file 3 0 100]
    ∧ ([Hunk.file 3 0 100] : List Hunk) ≠ [Hunk.special, Hunk.file 3 0 100] := by
  decide

/-- Claim C5 (corrected, amended): when the zero-copy transmission attempt
yields WouldBlock (EAGAIN) reporting `n` bytes, the engine stops the loop
without consuming further oracle entries, sets the connection's write-ready
flag to false, adds `n` to the cumulative sent counter, and returns the
chain with the `n` reported bytes applied by the completion pass; in
particular with bytesSent = 0 no cursor is changed and the returned chain
is the input chain with its leading special spans removed — the head itself
is unchanged only when the chain does not begin with special spans. -/
theorem c5_wouldblock_stops (cfg : Config) (conn : Conn) (chain : List Hunk)
    (n : Nat) (rest : List Syscall) (f : FileRegion)
    (hf : (coalesce chain).fileRegion = some f)
    (hnp : nopushFails cfg conn = false) :
    sendLoop cfg conn chain (Syscall.eagain n :: rest)
      = .done
          { applyNopush cfg conn with
              writeReady := false,
              sent := conn.sent + n }
          ((applySent n chain).1.drop (applySent n chain).2)
    ∧ (applySent 0 chain).1 = chain
    ∧ (applySent 0 chain).1.drop (applySent 0 chain).2
        = chain.dropWhile fun x => ngx_hunk_special x := by
  refine ⟨?_, ?_, ?_⟩
  · have hstep : stepIter cfg conn chain (Syscall.eagain n)
        = .ok ⟨{ applyNopush cfg conn with
                 sent := (applyNopush cfg conn).sent + n },
               (applySent n chain).1, (applySent n chain).2,
               (coalesce chain).tailIdx, false, true⟩ := by
      simp [stepIter, transmitCall, hf, hnp, finishStep]
    rw [sendLoop_cons_ok cfg conn chain (Syscall.eagain n) rest _ hstep]
    simp [applyNopush_sent]
  · rw [applySent_zero chain]
  · rw [applySent_zero chain]
    exact drop_takeWhile_eq_dropWhile _ chain

theorem c5_wouldblock_stops_witness :
    sendLoop ⟨false, true, true⟩ ⟨true, false, 5⟩ [Hunk.file 3 0 100]
        (Syscall.eagain 7 :: [Syscall.ok 1])
      = .done { applyNopush ⟨false, true, true⟩ ⟨true, false, 5⟩ with
                writeReady := false, sent := 5 + 7 }
          ((applySent 7 [Hunk.file 3 0 100]).1.drop
            (applySent 7 [Hunk.file 3 0 100]).2) :=
  (c5_wouldblock_stops ⟨false, true, true⟩ ⟨true, false, 5⟩
    [Hunk.file 3 0 100] 7 [Syscall.ok 1] ⟨3, 0, 100⟩
    (by decide) (by decide)).1

/-- Claim C6 (corrected) — counterexample to the claim as stated: on a
fatal transmission error the bytes the adapter reported are NOT applied to
the chain before the call aborts.  With one file span and a fatal outcome
reporting 50 bytes, the engine returns the fatal marker with the chain (and
the connection's sent counter) exactly as they were, although applying the
50 reported bytes would have advanced the span's cursor. -/
theorem c6_fatal_counterexample :
    ngx_freebsd_sendfile_chain ⟨false, true, true⟩ ⟨true, false, 0⟩
        [Hunk.file 3 0 100] [Syscall.fatalErr 50]
      = .chainError ⟨true, false, 0⟩ [Hunk.file 3 0 100]
    ∧ (applySent 50 [Hunk.file 3 0 100]).1 ≠ [Hunk.file 3 0 100] := by
  decide

/-- Claim C6 (corrected, amended): on a fatal transmission outcome the call
aborts immediately with the fatal chain-processing marker; the byte count
reported together with the fatal outcome is discarded — no completion pass
runs, no span cursor moves, and the connection's cumulative sent counter
and write-ready flag keep their values from before the attempt (on the
zero-copy path the cork flag may already have been set).  Bytes applied by
earlier, non-fatal iterations of the same call remain applied. -/
theorem c6_fatal_abort (cfg : Config) (conn : Conn) (chain : List Hunk)
    (n : Nat) (rest : List Syscall) :
    sendLoop cfg conn chain (Syscall.fatalErr n :: rest)
      = .chainError
          (if (coalesce chain).fileRegion.isSome then applyNopush cfg conn
           else conn) chain
    ∧ (applyNopush cfg conn).sent = conn.sent
    ∧ (applyNopush cfg conn).writeReady = conn.writeReady := by
  refine ⟨?_, applyNopush_sent cfg conn, applyNopush_writeReady cfg conn⟩
  cases hco : (coalesce chain).fileRegion with
  | none =>
    have hstep : stepIter cfg conn chain (Syscall.fatalErr n)
        = .chainError conn := by
      simp [stepIter, transmitCall, hco]
    simp [sendLoop, hstep, hco]
  | some f =>
    have hstep : stepIter cfg conn chain (Syscall.fatalErr n)
        = .chainError (applyNopush cfg conn) := by
      simp only [stepIter, transmitCall, hco]
      split <;> rfl
    simp [sendLoop, hstep, hco]

/-- Claim C7 (corrected) — counterexample to the claim as stated: a special
span is not always preserved in the returned chain.  With the chain
`[special, mem]` and a writev EAGAIN (zero bytes consumed), the engine
returns `[mem]`: the completion pass's stop cell is the first non-special
span, so the leading special span is dropped from the returned chain even
though no bytes were consumed. -/
theorem c7_special_counterexample :
    ngx_freebsd_sendfile_chain ⟨false, true, true⟩ ⟨true, false, 0⟩
        [Hunk.special, Hunk.mem 10 13] [Syscall.eagain 0]
      = .done ⟨false, false, 0⟩ [Hunk.mem 10 13]
    ∧ Hunk.special ∉ ([Hunk.mem 10 13] : List Hunk) := by
  decide

/-- Claim C7 (corrected, amended): special (zero-length) spans are never
placed in any header or trailer vector and never stop the memory scans or
the completion scan — the scans treat them as a pure index advance — and
the completion pass never modifies a special span: it keeps its position in
the cursor-updated chain, whose length always equals the input chain's (the
returned chain is a suffix of it, truncated only from the front).  A
special span does stop the file-region coalescing, and special spans
located before the completion pass's stop cell are dropped from the
returned chain; those at or after it are preserved in order. -/
theorem c7_special_transparency (n : Nat) (c t : List Hunk) (i : Nat)
    (prev : Option Nat) (acc : List Iovec)
    (hsize idx fd fprev fsize : Nat)
    (hc : c.get? i = some Hunk.special) :
    memScanLoop (Hunk.special :: t) prev acc hsize idx
      = memScanLoop t prev acc hsize (idx + 1)
    ∧ applySent n (Hunk.special :: t)
        = (Hunk.special :: (applySent n t).1, (applySent n t).2 + 1)
    ∧ (applySent n c).1.get? i = some Hunk.special
    ∧ (applySent n c).1.length = c.length
    ∧ (applySent n c).2 ≤ c.length
    ∧ fileCoalesce fd fprev fsize (Hunk.special :: t) = (fsize, fprev, 0) := by
  refine ⟨rfl, ?_, applySent_special_preserved n c i hc,
    (applySent_length n c).1, (applySent_length n c).2, rfl⟩
  simp [applySent, ngx_hunk_special]

theorem c7_special_transparency_witness :
    (applySent 4 [Hunk.mem 0 2, Hunk.special, Hunk.mem 5 9]).1.get? 1
      = some Hunk.special :=
  (c7_special_transparency 4 [Hunk.mem 0 2, Hunk.special, Hunk.mem 5 9]
    [] 1 none [] 0 0 0 0 0 (by decide)).2.2.1
